import Mathlib

/-!
Verification of the `tstr` crate's digit-chain encoding
(`src/tstr/src/to_uint/impl_no_const_generics.rs`).

The Rust code gives the ten zero-sized digit marker types `__0 .. __9`,
the wrapper `TStr<__<T>>`, and tuples of parts (arities 0 through 8)
implementations of the `ToUint` trait with associated constants
`U128 : u128`, `DIGITS : u32` (and, for digits and the wrapper, `USIZE`).
Rust constant evaluation aborts compilation on an out-of-bounds index of
the `POW_TEN` table and on overflowing `u128`/`u32` arithmetic, so every
associated constant is embedded as an `Option Nat`: `some v` means the
constant evaluates to `v`, `none` means compilation fails.
-/

mutual

/-- The shapes that implement the sealed `ToUint` trait:
a digit marker `__0 .. __9`, the wrapper `TStr<__<T>>`, and tuples of
parts.  The Rust code instantiates tuple arities 0 through 8; `Chains`
models the component list of such a tuple (the arity bound restricts
which `Chain` values correspond to actual Rust types, but every theorem
below holds for all arities, hence for the instantiated ones). -/
inductive Chain : Type where
  | digit : Fin 10 → Chain
  | tstr : Chain → Chain
  | tuple : Chains → Chain

/-- A list of tuple components; see `Chain`. -/
inductive Chains : Type where
  | nil : Chains
  | cons : Chain → Chains → Chains

end

/-- The table of powers of ten from the source, 39 entries. -/
def POW_TEN : List Nat :=
  [1,
   10,
   100,
   1000,
   10000,
   100000,
   1000000,
   10000000,
   100000000,
   1000000000,
   10000000000,
   100000000000,
   1000000000000,
   10000000000000,
   100000000000000,
   1000000000000000,
   10000000000000000,
   100000000000000000,
   1000000000000000000,
   10000000000000000000,
   100000000000000000000,
   1000000000000000000000,
   10000000000000000000000,
   100000000000000000000000,
   1000000000000000000000000,
   10000000000000000000000000,
   100000000000000000000000000,
   1000000000000000000000000000,
   10000000000000000000000000000,
   100000000000000000000000000000,
   1000000000000000000000000000000,
   10000000000000000000000000000000,
   100000000000000000000000000000000,
   1000000000000000000000000000000000,
   10000000000000000000000000000000000,
   100000000000000000000000000000000000,
   1000000000000000000000000000000000000,
   10000000000000000000000000000000000000,
   100000000000000000000000000000000000000]

/-- The source's `const fn ten_pow(power: usize) -> u128 { POW_TEN[power] }`.
An out-of-bounds index aborts constant evaluation, hence `Option`. -/
def ten_pow (power : Nat) : Option Nat :=
  POW_TEN[power]?

/-- Checked `u128` addition: Rust constant evaluation fails on overflow. -/
def cadd128 (a b : Nat) : Option Nat :=
  if a + b < 2 ^ 128 then some (a + b) else none

/-- Checked `u128` multiplication: Rust constant evaluation fails on overflow. -/
def cmul128 (a b : Nat) : Option Nat :=
  if a * b < 2 ^ 128 then some (a * b) else none

/-- Checked `u32` addition: Rust constant evaluation fails on overflow. -/
def cadd32 (a b : Nat) : Option Nat :=
  if a + b < 2 ^ 32 then some (a + b) else none

mutual

/-- The `DIGITS` associated constant: `1` for a digit marker `__0 .. __9`,
`T::DIGITS` for `TStr<__<T>>`, and `0 + A::DIGITS + B::DIGITS + ...`
(checked `u32` additions, left to right) for a tuple. -/
def DIGITS : Chain → Option Nat
  | .digit _ => some 1
  | .tstr t => DIGITS t
  | .tuple ps => digitsList 0 ps

/-- Left-to-right accumulation of `0 + A::DIGITS + B::DIGITS + ...` over the
components of a tuple, with checked `u32` additions. -/
def digitsList : Nat → Chains → Option Nat
  | acc, .nil => some acc
  | acc, .cons p ps =>
    match DIGITS p with
    | none => none
    | some d =>
      match cadd32 acc d with
      | none => none
      | some a => digitsList a ps

end

mutual

/-- The `U128` associated constant: the digit's value for `__0 .. __9`,
`T::U128` for `TStr<__<T>>`, and for a tuple the fold
`sum = Ty::U128 + sum * ten_pow(Ty::DIGITS as usize)` over the components
in order, starting from `0`, with checked `u128` arithmetic. -/
def U128 : Chain → Option Nat
  | .digit d => some d.val
  | .tstr t => U128 t
  | .tuple ps => u128List 0 ps

/-- One fold step per tuple component:
`sum = Ty::U128 + sum * ten_pow(Ty::DIGITS as usize)`.  Evaluation of the
component's own constants, the table index, and each checked arithmetic
operation can all abort compilation. -/
def u128List : Nat → Chains → Option Nat
  | sum, .nil => some sum
  | sum, .cons p ps =>
    match U128 p with
    | none => none
    | some v =>
      match DIGITS p with
      | none => none
      | some d =>
        match ten_pow d with
        | none => none
        | some pw =>
          match cmul128 sum pw with
          | none => none
          | some m =>
            match cadd128 v m with
            | none => none
            | some s => u128List s ps

end

/-- The `USIZE` associated constant as defined in the file under
verification: the digit's value for `__0 .. __9` and `T::USIZE` for
`TStr<__<T>>`.  The tuple implementations in this file do not define
`USIZE` (it comes from a trait default elsewhere), modelled as `none`. -/
def USIZE : Chain → Option Nat
  | .digit d => some d.val
  | .tstr t => USIZE t
  | .tuple _ => none

mutual

/-- The flat digit sequence of a chain, most significant first. -/
def flatten : Chain → List (Fin 10)
  | .digit d => [d]
  | .tstr t => flatten t
  | .tuple ps => flattenList ps

/-- The concatenated digit sequences of a tuple's components. -/
def flattenList : Chains → List (Fin 10)
  | .nil => []
  | .cons p ps => flatten p ++ flattenList ps

end

/-- Base-10 value of a digit sequence, accumulated onto `a` by
value = value * 10 + digit. -/
def valAcc (a : Nat) (l : List (Fin 10)) : Nat :=
  l.foldl (fun x d => x * 10 + d.val) a

/-- Base-10 value of a digit sequence, most significant digit first. -/
def val (l : List (Fin 10)) : Nat :=
  valAcc 0 l

theorem valAcc_append (a : Nat) (l1 l2 : List (Fin 10)) :
    valAcc a (l1 ++ l2) = valAcc (valAcc a l1) l2 := by
  simp [valAcc, List.foldl_append]

theorem valAcc_eq (l : List (Fin 10)) : ∀ a : Nat,
    valAcc a l = a * 10 ^ l.length + val l := by
  induction l with
  | nil => intro a; simp [valAcc, val]
  | cons d l ih =>
    intro a
    have h1 : valAcc a (d :: l) = valAcc (a * 10 + d.val) l := rfl
    have h2 : val (d :: l) = valAcc d.val l := by simp [val, valAcc]
    rw [h1, ih, h2, ih d.val]
    ring_nf
    simp [pow_succ]
    ring

theorem valAcc_lt (l : List (Fin 10)) : ∀ a s : Nat, a < 10 ^ s →
    valAcc a l < 10 ^ (s + l.length) := by
  induction l with
  | nil => intro a s h; simpa [valAcc] using h
  | cons d l ih =>
    intro a s h
    have hd : d.val < 10 := d.isLt
    have h1 : valAcc a (d :: l) = valAcc (a * 10 + d.val) l := rfl
    have h2 : a * 10 + d.val < 10 ^ (s + 1) := by
      have : a + 1 ≤ 10 ^ s := h
      calc a * 10 + d.val < a * 10 + 10 := by omega
        _ = (a + 1) * 10 := by ring
        _ ≤ 10 ^ s * 10 := by exact Nat.mul_le_mul_right 10 this
        _ = 10 ^ (s + 1) := by rw [pow_succ]
    have := ih (a * 10 + d.val) (s + 1) h2
    rw [h1]
    calc valAcc (a * 10 + d.val) l < 10 ^ (s + 1 + l.length) := this
      _ = 10 ^ (s + (d :: l).length) := by simp; ring_nf

theorem val_lt (l : List (Fin 10)) : val l < 10 ^ l.length := by
  have := valAcc_lt l 0 0 (by norm_num)
  simpa [val] using this

theorem ten_pow_le {p : Nat} (h : p ≤ 38) : ten_pow p = some (10 ^ p) := by
  have key : ∀ q < 39, ten_pow q = some (10 ^ q) := by decide
  exact key p (by omega)

theorem ten_pow_gt {p : Nat} (h : 38 < p) : ten_pow p = none := by
  have hlen : POW_TEN.length = 39 := by decide
  simp only [ten_pow]
  exact List.getElem?_eq_none (by omega)

theorem pow38_lt : (10 : Nat) ^ 38 < 2 ^ 128 := by norm_num

mutual

/-- The `DIGITS` constant of a chain evaluates to its flat digit count
whenever no intermediate `u32` addition overflows. -/
theorem DIGITS_eq_length : ∀ (c : Chain), (flatten c).length < 2 ^ 32 →
    DIGITS c = some (flatten c).length
  | .digit d, _ => rfl
  | .tstr t, h => by
    simpa [DIGITS, flatten] using DIGITS_eq_length t (by simpa [flatten] using h)
  | .tuple ps, h => by
    simpa [DIGITS, flatten] using
      digitsList_eq_length ps 0 (by simpa [flatten] using h)

/-- Accumulator form of `DIGITS_eq_length` for tuple component lists. -/
theorem digitsList_eq_length : ∀ (ps : Chains) (acc : Nat),
    acc + (flattenList ps).length < 2 ^ 32 →
    digitsList acc ps = some (acc + (flattenList ps).length)
  | .nil, acc, _ => by simp [digitsList, flattenList]
  | .cons p ps, acc, h => by
    have hlen : (flattenList (.cons p ps)).length
        = (flatten p).length + (flattenList ps).length := by
      simp [flattenList]
    have hp : DIGITS p = some (flatten p).length :=
      DIGITS_eq_length p (by omega)
    have hadd : cadd32 acc (flatten p).length
        = some (acc + (flatten p).length) := by
      rw [hlen] at h
      simp [cadd32]
      omega
    have hrec : digitsList (acc + (flatten p).length) ps
        = some (acc + (flatten p).length + (flattenList ps).length) :=
      digitsList_eq_length ps (acc + (flatten p).length) (by omega)
    simp [digitsList, hp, hadd, hrec, hlen]
    omega

end

mutual

/-- The `U128` constant of a chain evaluates to the base-10 value of its
flat digit sequence whenever the chain holds at most 38 digits. -/
theorem U128_eq_val : ∀ (c : Chain), (flatten c).length ≤ 38 →
    U128 c = some (val (flatten c))
  | .digit d, _ => by simp [U128, flatten, val, valAcc]
  | .tstr t, h => by
    simpa [U128, flatten] using U128_eq_val t (by simpa [flatten] using h)
  | .tuple ps, h => by
    simpa [U128, flatten, val] using
      u128List_eq_val ps 0 0 (by norm_num) (by simpa [flatten] using h)

/-- Accumulator form of `U128_eq_val`: one fold step per component, with
all table indices in bounds and no `u128` overflow. -/
theorem u128List_eq_val : ∀ (ps : Chains) (sum s : Nat), sum < 10 ^ s →
    s + (flattenList ps).length ≤ 38 →
    u128List sum ps = some (valAcc sum (flattenList ps))
  | .nil, sum, s, _, _ => by simp [u128List, flattenList, valAcc]
  | .cons p ps, sum, s, hsum, h => by
    have hlen : (flattenList (.cons p ps)).length
        = (flatten p).length + (flattenList ps).length := by
      simp [flattenList]
    rw [hlen] at h
    have hp : U128 p = some (val (flatten p)) :=
      U128_eq_val p (by omega)
    have hd : DIGITS p = some (flatten p).length :=
      DIGITS_eq_length p (by omega)
    have hpw : ten_pow (flatten p).length = some (10 ^ (flatten p).length) :=
      ten_pow_le (by omega)
    have hmulbound : sum * 10 ^ (flatten p).length < 2 ^ 128 := by
      calc sum * 10 ^ (flatten p).length
          < 10 ^ s * 10 ^ (flatten p).length := by
            exact (Nat.mul_lt_mul_right
              (Nat.pos_pow_of_pos _ (by norm_num))).mpr hsum
        _ = 10 ^ (s + (flatten p).length) := by rw [pow_add]
        _ ≤ 10 ^ 38 := Nat.pow_le_pow_right (by norm_num) (by omega)
        _ < 2 ^ 128 := pow38_lt
    have hmul : cmul128 sum (10 ^ (flatten p).length)
        = some (sum * 10 ^ (flatten p).length) := by
      rw [cmul128, if_pos hmulbound]
    have hvacc : val (flatten p) + sum * 10 ^ (flatten p).length
        = valAcc sum (flatten p) := by
      rw [valAcc_eq]; ring
    have haccbound : valAcc sum (flatten p) < 10 ^ (s + (flatten p).length) :=
      valAcc_lt (flatten p) sum s hsum
    have haddbound : val (flatten p) + sum * 10 ^ (flatten p).length < 2 ^ 128 := by
      rw [hvacc]
      calc valAcc sum (flatten p) < 10 ^ (s + (flatten p).length) := haccbound
        _ ≤ 10 ^ 38 := Nat.pow_le_pow_right (by norm_num) (by omega)
        _ < 2 ^ 128 := pow38_lt
    have hadd : cadd128 (val (flatten p)) (sum * 10 ^ (flatten p).length)
        = some (valAcc sum (flatten p)) := by
      rw [cadd128, if_pos haddbound, hvacc]
    have hrec : u128List (valAcc sum (flatten p)) ps
        = some (valAcc (valAcc sum (flatten p)) (flattenList ps)) :=
      u128List_eq_val ps (valAcc sum (flatten p)) (s + (flatten p).length)
        haccbound (by omega)
    simp [u128List, hp, hd, hpw, hmul, hadd, hrec, flattenList, valAcc_append]

end

/-- Modelled from the spec: most-significant-first decimal digits of a
positive integer, with explicit recursion fuel (`n` itself suffices). -/
def decDigitsAux : Nat → Nat → List (Fin 10)
  | 0, _ => []
  | fuel + 1, n =>
    if n = 0 then []
    else decDigitsAux fuel (n / 10) ++ [⟨n % 10, by omega⟩]

/-- Modelled from the spec: the decimal representation of `n` as digits,
most significant first; `0` is written with the single digit `0`. -/
def decDigits (n : Nat) : List (Fin 10) :=
  if n = 0 then [⟨0, by norm_num⟩] else decDigitsAux n n

theorem valAcc_decDigitsAux : ∀ (fuel n : Nat), n ≤ fuel → ∀ a : Nat,
    valAcc a (decDigitsAux fuel n)
      = a * 10 ^ (decDigitsAux fuel n).length + n := by
  intro fuel
  induction fuel with
  | zero =>
    intro n hn a
    interval_cases n
    simp [decDigitsAux, valAcc]
  | succ fuel ih =>
    intro n hn a
    by_cases h0 : n = 0
    · subst h0; simp [decDigitsAux, valAcc]
    · have hdiv : n / 10 ≤ fuel := by omega
      have ihd := ih (n / 10) hdiv a
      simp only [decDigitsAux, if_neg h0]
      rw [valAcc_append, ihd]
      have hsingle : ∀ b : Nat, valAcc b [(⟨n % 10, by omega⟩ : Fin 10)]
          = b * 10 + n % 10 := by
        intro b; simp [valAcc]
      rw [hsingle]
      have hlen : (decDigitsAux fuel (n / 10) ++
          [(⟨n % 10, by omega⟩ : Fin 10)]).length
          = (decDigitsAux fuel (n / 10)).length + 1 := by simp
      rw [hlen, pow_succ]
      have := Nat.div_add_mod n 10
      ring_nf
      omega

theorem val_decDigits (n : Nat) : val (decDigits n) = n := by
  by_cases h0 : n = 0
  · subst h0; simp [decDigits, val, valAcc]
  · simp only [decDigits, if_neg h0, val]
    rw [valAcc_decDigitsAux n n (le_refl n) 0]
    simp

theorem decDigitsAux_length : ∀ (fuel n k : Nat), n ≤ fuel → n < 10 ^ k →
    (decDigitsAux fuel n).length ≤ k := by
  intro fuel
  induction fuel with
  | zero =>
    intro n k hn _
    interval_cases n
    simp [decDigitsAux]
  | succ fuel ih =>
    intro n k hn hk
    by_cases h0 : n = 0
    · subst h0; simp [decDigitsAux]
    · have hkpos : 1 ≤ k := by
        by_contra hlt
        have : k = 0 := by omega
        subst this
        simp at hk
        omega
      have hdivlt : n / 10 < 10 ^ (k - 1) := by
        rw [Nat.div_lt_iff_lt_mul (by norm_num)]
        calc n < 10 ^ k := hk
          _ = 10 ^ (k - 1) * 10 := by
            rw [← pow_succ]
            congr 1
            omega
      have := ih (n / 10) (k - 1) (by omega) hdivlt
      simp only [decDigitsAux, if_neg h0]
      rw [List.length_append]
      simp
      omega

theorem decDigits_length {n : Nat} (h : n < 10 ^ 38) :
    (decDigits n).length ≤ 38 := by
  by_cases h0 : n = 0
  · subst h0; simp [decDigits]
  · simp only [decDigits, if_neg h0]
    exact decDigitsAux_length n n 38 (le_refl n) h

/-- Modelled from the spec: split a digit sequence into groups of at most
8 digits (the base tuple arity); `fuel` at least the list length suffices. -/
def chunksOf : Nat → List (Fin 10) → List (List (Fin 10))
  | 0, l => [l]
  | _ + 1, [] => []
  | fuel + 1, d :: l => (d :: l).take 8 :: chunksOf fuel ((d :: l).drop 8)

theorem chunksOf_flatten : ∀ (fuel : Nat) (l : List (Fin 10)),
    (chunksOf fuel l).flatten = l := by
  intro fuel
  induction fuel with
  | zero => intro l; simp [chunksOf]
  | succ fuel ih =>
    intro l
    match l with
    | [] => simp [chunksOf]
    | d :: l =>
      simp only [chunksOf, List.flatten_cons, ih]
      exact List.take_append_drop 8 (d :: l)

/-- One tuple component per digit marker. -/
def digitsToChains : List (Fin 10) → Chains
  | [] => .nil
  | d :: ds => .cons (.digit d) (digitsToChains ds)

/-- One tuple component per group of digits. -/
def chunksToChains : List (List (Fin 10)) → Chains
  | [] => .nil
  | c :: cs => .cons (.tuple (digitsToChains c)) (chunksToChains cs)

theorem flattenList_digitsToChains (l : List (Fin 10)) :
    flattenList (digitsToChains l) = l := by
  induction l with
  | nil => simp [digitsToChains, flattenList]
  | cons d ds ih => simp [digitsToChains, flattenList, flatten, ih]

theorem flattenList_chunksToChains (cs : List (List (Fin 10))) :
    flattenList (chunksToChains cs) = cs.flatten := by
  induction cs with
  | nil => simp [chunksToChains, flattenList]
  | cons c cs ih =>
    simp [chunksToChains, flattenList, flatten, ih, flattenList_digitsToChains]

/-- Modelled from the spec: the digit chain built from the decimal
representation of `n` — one digit marker type per decimal digit, grouped
into tuples of at most 8 components, wrapped as `TStr<__<...>>`.  The
literal-expansion macros that do this in the crate are not under `src/`;
by regrouping invariance the exact grouping does not affect `U128` or
`DIGITS`. -/
def encode (n : Nat) : Chain :=
  .tstr (.tuple (chunksToChains (chunksOf (decDigits n).length (decDigits n))))

theorem flatten_encode (n : Nat) : flatten (encode n) = decDigits n := by
  simp [encode, flatten, flattenList_chunksToChains, chunksOf_flatten]

theorem U128_encode {n : Nat} (h : n < 10 ^ 38) : U128 (encode n) = some n := by
  have hlen : (flatten (encode n)).length ≤ 38 := by
    rw [flatten_encode]; exact decDigits_length h
  rw [U128_eq_val (encode n) hlen, flatten_encode, val_decDigits]

theorem DIGITS_encode {n : Nat} (h : n < 10 ^ 38) :
    DIGITS (encode n) = some (decDigits n).length := by
  have hlen : (flatten (encode n)).length ≤ 38 := by
    rw [flatten_encode]; exact decDigits_length h
  rw [DIGITS_eq_length (encode n) (by omega), flatten_encode]

/-- One digit chain per byte of the text. -/
def mapEncode : List (Fin 256) → Chains
  | [] => .nil
  | b :: bs => .cons (encode b.val) (mapEncode bs)

/-- Modelled from the spec: the digit-chain shape string marker — a tuple
of digit chains, one per byte of the text, each chain encoding that byte's
numeric value, wrapped as `TStr<__<...>>`.  The literal-expansion macros
that build this type in the crate are not under `src/`. -/
def construct (text : List (Fin 256)) : Chain :=
  .tstr (.tuple (mapEncode text))

/-- Modelled from the spec: in the char-array shape the marker is the text
itself, as a fixed-size array of `char` const parameters. -/
def constructChars (text : List Char) : List Char :=
  text

/-- Modelled from the spec: in the raw-string shape the marker is the text
itself, as a `&'static str` const parameter. -/
def constructRaw (text : String) : String :=
  text

theorem encode_injOn {a b : Nat} (ha : a < 10 ^ 38) (hb : b < 10 ^ 38)
    (h : encode a = encode b) : a = b := by
  have h1 : U128 (encode a) = some a := U128_encode ha
  rw [h, U128_encode hb] at h1
  exact (Option.some_inj.mp h1).symm

theorem mapEncode_inj : ∀ (t1 t2 : List (Fin 256)),
    mapEncode t1 = mapEncode t2 → t1 = t2
  | [], [], _ => rfl
  | [], _ :: _, h => Chains.noConfusion h
  | _ :: _, [], h => Chains.noConfusion h
  | a :: as, b :: bs, h => by
    have h2 := Chains.cons.inj h
    have hab : a = b := by
      apply Fin.ext
      exact encode_injOn (lt_of_lt_of_le a.isLt (by norm_num))
        (lt_of_lt_of_le b.isLt (by norm_num)) h2.1
    rw [hab, mapEncode_inj as bs h2.2]

/-- A helper extraction: checked `u128` addition succeeds only below `2^128`. -/
theorem cadd128_some {a b s : Nat} (h : cadd128 a b = some s) :
    s = a + b ∧ s < 2 ^ 128 := by
  unfold cadd128 at h
  split at h
  · injection h with h1; omega
  · exact Option.noConfusion h

theorem cmul128_some {a b s : Nat} (h : cmul128 a b = some s) :
    s = a * b ∧ s < 2 ^ 128 := by
  unfold cmul128 at h
  split at h
  · injection h with h1; omega
  · exact Option.noConfusion h

theorem cadd32_some {a b s : Nat} (h : cadd32 a b = some s) :
    s = a + b ∧ s < 2 ^ 32 := by
  unfold cadd32 at h
  split at h
  · injection h with h1; omega
  · exact Option.noConfusion h

theorem ten_pow_some {d pw : Nat} (h : ten_pow d = some pw) :
    pw = 10 ^ d ∧ d ≤ 38 := by
  by_cases hd : d ≤ 38
  · rw [ten_pow_le hd] at h
    exact ⟨(Option.some_inj.mp h).symm, hd⟩
  · rw [ten_pow_gt (by omega)] at h
    exact Option.noConfusion h

/-- Concatenation of tuple component lists. -/
def appendChains : Chains → Chains → Chains
  | .nil, qs => qs
  | .cons p ps, qs => .cons p (appendChains ps qs)

theorem u128List_empty_elem : ∀ (ps1 : Chains) (sum : Nat) (ps2 : Chains),
    sum < 2 ^ 128 →
    u128List sum (appendChains ps1 (.cons (.tuple .nil) ps2))
      = u128List sum (appendChains ps1 ps2)
  | .nil, sum, ps2, hs => by
    have hmul : cmul128 sum 1 = some sum := by
      unfold cmul128
      rw [if_pos (by omega)]
      congr 1
      omega
    have hadd : cadd128 0 sum = some sum := by
      unfold cadd128
      rw [if_pos (by omega)]
      congr 1
      omega
    have hU : U128 (.tuple .nil) = some 0 := rfl
    have hD : DIGITS (.tuple .nil) = some 0 := rfl
    have hpw : ten_pow 0 = some 1 := rfl
    simp [appendChains, u128List, hU, hD, hpw, hmul, hadd]
  | .cons p ps1, sum, ps2, hs => by
    cases hU : U128 p with
    | none => simp [appendChains, u128List, hU]
    | some v =>
      cases hD : DIGITS p with
      | none => simp [appendChains, u128List, hU, hD]
      | some d =>
        cases hT : ten_pow d with
        | none => simp [appendChains, u128List, hU, hD, hT]
        | some pw =>
          cases hM : cmul128 sum pw with
          | none => simp [appendChains, u128List, hU, hD, hT, hM]
          | some m =>
            cases hA : cadd128 v m with
            | none => simp [appendChains, u128List, hU, hD, hT, hM, hA]
            | some s' =>
              have hrec := u128List_empty_elem ps1 s' ps2 (cadd128_some hA).2
              simp [appendChains, u128List, hU, hD, hT, hM, hA, hrec]

theorem digitsList_empty_elem : ∀ (ps1 : Chains) (acc : Nat) (ps2 : Chains),
    acc < 2 ^ 32 →
    digitsList acc (appendChains ps1 (.cons (.tuple .nil) ps2))
      = digitsList acc (appendChains ps1 ps2)
  | .nil, acc, ps2, ha => by
    have hadd : cadd32 acc 0 = some acc := by
      simp [cadd32]
      omega
    have hD : DIGITS (.tuple .nil) = some 0 := rfl
    simp [appendChains, digitsList, hD, hadd]
  | .cons p ps1, acc, ps2, ha => by
    cases hD : DIGITS p with
    | none => simp [appendChains, digitsList, hD]
    | some d =>
      cases hA : cadd32 acc d with
      | none => simp [appendChains, digitsList, hD, hA]
      | some a' =>
        have hrec := digitsList_empty_elem ps1 a' ps2 (cadd32_some hA).2
        simp [appendChains, digitsList, hD, hA, hrec]

/-- The pair of constants a tuple component contributes, when both of its
own constants evaluate. -/
def vdOf (p : Chain) : Option (Nat × Nat) :=
  match U128 p, DIGITS p with
  | some v, some d => some (v, d)
  | _, _ => none

/-- The contributed pairs of a whole component list, when they all evaluate. -/
def vdList : Chains → Option (List (Nat × Nat))
  | .nil => some []
  | .cons p ps =>
    match vdOf p, vdList ps with
    | some vd, some l => some (vd :: l)
    | _, _ => none

/-- The spec's stated composition rule, written over plain pairs
(value, digit count): value = value * 10 ^ digitcount(part) + value(part),
accumulated left to right. -/
def specFold (start : Nat) (l : List (Nat × Nat)) : Nat :=
  l.foldl (fun acc vd => acc * 10 ^ vd.2 + vd.1) start

theorem vdOf_some {p : Chain} {v d : Nat} (h : vdOf p = some (v, d)) :
    U128 p = some v ∧ DIGITS p = some d := by
  cases hU : U128 p with
  | none => simp [vdOf, hU] at h
  | some v' =>
    cases hD : DIGITS p with
    | none => simp [vdOf, hU, hD] at h
    | some d' =>
      simp [vdOf, hU, hD] at h
      exact ⟨by rw [h.1], by rw [h.2]⟩

theorem u128List_specFold : ∀ (ps : Chains) (l : List (Nat × Nat))
    (sum V : Nat), vdList ps = some l → u128List sum ps = some V →
    V = specFold sum l
  | .nil, l, sum, V, hvd, hV => by
    simp only [vdList] at hvd
    simp only [u128List] at hV
    injection hvd with hl
    injection hV with hv
    subst hl; subst hv
    simp [specFold]
  | .cons p ps, l, sum, V, hvd, hV => by
    simp only [vdList] at hvd
    cases hO : vdOf p with
    | none => rw [hO] at hvd; exact Option.noConfusion hvd
    | some vd =>
      cases hL : vdList ps with
      | none => rw [hO, hL] at hvd; exact Option.noConfusion hvd
      | some l' =>
        rw [hO, hL] at hvd
        injection hvd with hl
        subst hl
        obtain ⟨v, d⟩ := vd
        obtain ⟨hU, hD⟩ := vdOf_some hO
        cases hT : ten_pow d with
        | none => simp [u128List, hU, hD, hT] at hV
        | some pw =>
          obtain ⟨hpw, _⟩ := ten_pow_some hT
          cases hM : cmul128 sum pw with
          | none => simp [u128List, hU, hD, hT, hM] at hV
          | some m =>
            cases hA : cadd128 v m with
            | none => simp [u128List, hU, hD, hT, hM, hA] at hV
            | some s' =>
              simp [u128List, hU, hD, hT, hM, hA] at hV
              have hrec := u128List_specFold ps l' s' V hL hV
              obtain ⟨hm, _⟩ := cmul128_some hM
              obtain ⟨hs', _⟩ := cadd128_some hA
              rw [hrec]
              simp only [specFold, List.foldl_cons]
              congr 1
              subst hpw hm hs'
              ring

theorem digitsList_specSum : ∀ (ps : Chains) (l : List (Nat × Nat))
    (acc D : Nat), vdList ps = some l → digitsList acc ps = some D →
    D = acc + (l.map Prod.snd).sum
  | .nil, l, acc, D, hvd, hD => by
    simp only [vdList] at hvd
    simp only [digitsList] at hD
    injection hvd with hl
    injection hD with hd
    subst hl; subst hd
    simp
  | .cons p ps, l, acc, D, hvd, hD => by
    simp only [vdList] at hvd
    cases hO : vdOf p with
    | none => rw [hO] at hvd; exact Option.noConfusion hvd
    | some vd =>
      cases hL : vdList ps with
      | none => rw [hO, hL] at hvd; exact Option.noConfusion hvd
      | some l' =>
        rw [hO, hL] at hvd
        injection hvd with hl
        subst hl
        obtain ⟨v, d⟩ := vd
        obtain ⟨_, hDp⟩ := vdOf_some hO
        cases hA : cadd32 acc d with
        | none => simp [digitsList, hDp, hA] at hD
        | some a' =>
          simp [digitsList, hDp, hA] at hD
          have hrec := digitsList_specSum ps l' a' D hL hD
          obtain ⟨ha', _⟩ := cadd32_some hA
          rw [hrec, ha']
          simp
          omega

/-- A component list of `k` copies of the digit marker `__0`. -/
def zeros : Nat → Chains
  | 0 => .nil
  | k + 1 => .cons (.digit 0) (zeros k)

/-- A 39-digit chain with value `10 ^ 38`: the digit `1` followed by 38
zeros, grouped as a tuple of five tuples of at most 8 digit markers each —
only tuple arities the source instantiates. -/
def ex39 : Chain :=
  .tuple (.cons (.tuple (.cons (.digit 1) (zeros 7)))
    (.cons (.tuple (zeros 8))
      (.cons (.tuple (zeros 8))
        (.cons (.tuple (zeros 8))
          (.cons (.tuple (zeros 7)) .nil)))))

theorem u128List_big_elem {p : Chain} {d : Nat} (hD : DIGITS p = some d)
    (hd : 38 < d) : ∀ (ps1 : Chains) (sum : Nat) (ps2 : Chains),
    u128List sum (appendChains ps1 (.cons p ps2)) = none
  | .nil, sum, ps2 => by
    cases hU : U128 p with
    | none => simp [appendChains, u128List, hU]
    | some v => simp [appendChains, u128List, hU, hD, ten_pow_gt hd]
  | .cons q ps1, sum, ps2 => by
    cases hU : U128 q with
    | none => simp [appendChains, u128List, hU]
    | some v =>
      cases hDq : DIGITS q with
      | none => simp [appendChains, u128List, hU, hDq]
      | some dq =>
        cases hT : ten_pow dq with
        | none => simp [appendChains, u128List, hU, hDq, hT]
        | some pw =>
          cases hM : cmul128 sum pw with
          | none => simp [appendChains, u128List, hU, hDq, hT, hM]
          | some m =>
            cases hA : cadd128 v m with
            | none => simp [appendChains, u128List, hU, hDq, hT, hM, hA]
            | some s' =>
              have hrec := u128List_big_elem hD hd ps1 s' ps2
              simp [appendChains, u128List, hU, hDq, hT, hM, hA, hrec]

/-- A 38-digit chain with value `10 ^ 37`: the digit `1` followed by 37
zeros, grouped as five tuples of at most 8 digit markers each. -/
def ex38 : Chain :=
  .tuple (.cons (.tuple (.cons (.digit 1) (zeros 7)))
    (.cons (.tuple (zeros 8))
      (.cons (.tuple (zeros 8))
        (.cons (.tuple (zeros 8))
          (.cons (.tuple (zeros 6)) .nil)))))

/-- A 39-digit chain with the same flat digit sequence as `ex39` but
regrouped as tuples of arity 7, 8, 8, 8, 8. -/
def ex39b : Chain :=
  .tuple (.cons (.tuple (.cons (.digit 1) (zeros 6)))
    (.cons (.tuple (zeros 8))
      (.cons (.tuple (zeros 8))
        (.cons (.tuple (zeros 8))
          (.cons (.tuple (zeros 8)) .nil)))))

mutual

/-- Successful evaluation is exact, with no digit bound: whenever the
`DIGITS` constant of a chain evaluates at all — that is, no checked `u32`
addition overflows — its value is the chain's flat digit count. -/
theorem DIGITS_some_eq : ∀ (c : Chain) (d : Nat), DIGITS c = some d →
    d = (flatten c).length
  | .digit _, d, h => by
    simp [DIGITS] at h
    simp [flatten, ← h]
  | .tstr t, d, h => by
    simp only [flatten]
    exact DIGITS_some_eq t d (by simpa [DIGITS] using h)
  | .tuple ps, d, h => by
    simp only [flatten]
    have := digitsList_some_eq ps 0 d (by simpa [DIGITS] using h)
    omega

/-- Accumulator form of `DIGITS_some_eq` for tuple component lists. -/
theorem digitsList_some_eq : ∀ (ps : Chains) (acc D : Nat),
    digitsList acc ps = some D → D = acc + (flattenList ps).length
  | .nil, acc, D, h => by
    simp [digitsList] at h
    simp [flattenList, ← h]
  | .cons p ps, acc, D, h => by
    cases hD : DIGITS p with
    | none => simp [digitsList, hD] at h
    | some dp =>
      cases hA : cadd32 acc dp with
      | none => simp [digitsList, hD, hA] at h
      | some a' =>
        simp [digitsList, hD, hA] at h
        have h1 := DIGITS_some_eq p dp hD
        obtain ⟨ha', _⟩ := cadd32_some hA
        have h2 := digitsList_some_eq ps a' D h
        simp [flattenList]
        omega

end

mutual

/-- Successful evaluation is exact, with no digit bound: whenever the
`U128` constant of a chain evaluates at all — that is, every power-table
index is in bounds and no checked `u128` operation overflows — its value
is the base-10 value of the chain's flat digit sequence. -/
theorem U128_some_eq : ∀ (c : Chain) (v : Nat), U128 c = some v →
    v = val (flatten c)
  | .digit dg, v, h => by
    simp [U128] at h
    simp [flatten, val, valAcc, ← h]
  | .tstr t, v, h => by
    simp only [flatten]
    exact U128_some_eq t v (by simpa [U128] using h)
  | .tuple ps, v, h => by
    simp only [flatten]
    have := u128List_some_eq ps 0 v (by simpa [U128] using h)
    simpa [val] using this

/-- Accumulator form of `U128_some_eq` for tuple component lists. -/
theorem u128List_some_eq : ∀ (ps : Chains) (sum V : Nat),
    u128List sum ps = some V → V = valAcc sum (flattenList ps)
  | .nil, sum, V, h => by
    simp [u128List] at h
    simp [flattenList, valAcc, ← h]
  | .cons p ps, sum, V, h => by
    cases hU : U128 p with
    | none => simp [u128List, hU] at h
    | some vp =>
      cases hD : DIGITS p with
      | none => simp [u128List, hU, hD] at h
      | some dp =>
        cases hT : ten_pow dp with
        | none => simp [u128List, hU, hD, hT] at h
        | some pw =>
          cases hM : cmul128 sum pw with
          | none => simp [u128List, hU, hD, hT, hM] at h
          | some m =>
            cases hA : cadd128 vp m with
            | none => simp [u128List, hU, hD, hT, hM, hA] at h
            | some s' =>
              simp [u128List, hU, hD, hT, hM, hA] at h
              have hvp := U128_some_eq p vp hU
              have hdp := DIGITS_some_eq p dp hD
              obtain ⟨hpw, _⟩ := ten_pow_some hT
              obtain ⟨hm, _⟩ := cmul128_some hM
              obtain ⟨hs', _⟩ := cadd128_some hA
              have hrec := u128List_some_eq ps s' V h
              rw [hrec]
              simp only [flattenList, valAcc_append]
              congr 1
              rw [valAcc_eq]
              subst hs' hm hpw hdp hvp
              ring

end

/-- C1: for every non-negative integer N with at most 38 decimal digits,
the digit chain built from N's decimal representation has `U128`
evaluating to exactly N and `DIGITS` evaluating to the number of decimal
digits of N. -/
theorem claim_C1 (n : Nat) (h : n < 10 ^ 38) :
    U128 (encode n) = some n ∧ DIGITS (encode n) = some (decDigits n).length :=
  ⟨U128_encode h, DIGITS_encode h⟩

theorem claim_C1_witness :
    123 < 10 ^ 38 ∧
      (U128 (encode 123) = some 123 ∧
        DIGITS (encode 123) = some (decDigits 123).length) :=
  ⟨by norm_num, claim_C1 123 (by norm_num)⟩

/-- C2: under every encoding shape, the marker built from text T1 equals
the marker built from text T2 exactly when T1 and T2 are equal
byte-for-byte; distinct texts give distinct markers. -/
theorem claim_C2 :
    (∀ t1 t2 : List (Fin 256), construct t1 = construct t2 ↔ t1 = t2) ∧
    (∀ t1 t2 : List Char, constructChars t1 = constructChars t2 ↔ t1 = t2) ∧
    (∀ t1 t2 : String, constructRaw t1 = constructRaw t2 ↔ t1 = t2) := by
  refine ⟨fun t1 t2 => ⟨fun h => ?_, fun h => by rw [h]⟩,
    fun t1 t2 => Iff.rfl, fun t1 t2 => Iff.rfl⟩
  have h2 := Chain.tstr.inj h
  have h3 := Chain.tuple.inj h2
  exact mapEncode_inj t1 t2 h3

/-- C3: when a tuple's constants evaluate, its `U128` value is the
left-to-right accumulation value = value * 10 ^ digits(part) + value(part)
over the parts' pairs, and its `DIGITS` is the sum of the parts' digit
counts. -/
theorem claim_C3 (ps : Chains) (l : List (Nat × Nat)) (V D : Nat)
    (hl : vdList ps = some l) (hV : U128 (.tuple ps) = some V)
    (hD : DIGITS (.tuple ps) = some D) :
    V = specFold 0 l ∧ D = (l.map Prod.snd).sum := by
  constructor
  · exact u128List_specFold ps l 0 V hl (by simpa [U128] using hV)
  · have := digitsList_specSum ps l 0 D hl (by simpa [DIGITS] using hD)
    simpa using this

theorem claim_C3_witness :
    vdList (.cons (.digit 1) (.cons (.digit 2) .nil)) = some [(1, 1), (2, 1)] ∧
    U128 (.tuple (.cons (.digit 1) (.cons (.digit 2) .nil))) = some 12 ∧
    DIGITS (.tuple (.cons (.digit 1) (.cons (.digit 2) .nil))) = some 2 ∧
    (12 = specFold 0 [(1, 1), (2, 1)] ∧
      2 = ([(1, 1), (2, 1)].map Prod.snd).sum) :=
  ⟨by decide, by decide, by decide,
    claim_C3 (.cons (.digit 1) (.cons (.digit 2) .nil)) [(1, 1), (2, 1)]
      12 2 (by decide) (by decide) (by decide)⟩

/-- C4: the empty tuple has `U128 = 0` and `DIGITS = 0`, and inserting an
empty-tuple component at any position of any tuple changes neither the
tuple's `U128` nor its `DIGITS`. -/
theorem claim_C4 :
    (U128 (.tuple .nil) = some 0 ∧ DIGITS (.tuple .nil) = some 0) ∧
    ∀ ps1 ps2 : Chains,
      U128 (.tuple (appendChains ps1 (.cons (.tuple .nil) ps2)))
        = U128 (.tuple (appendChains ps1 ps2)) ∧
      DIGITS (.tuple (appendChains ps1 (.cons (.tuple .nil) ps2)))
        = DIGITS (.tuple (appendChains ps1 ps2)) := by
  refine ⟨⟨rfl, rfl⟩, fun ps1 ps2 => ⟨?_, ?_⟩⟩
  · simp only [U128]
    exact u128List_empty_elem ps1 0 ps2 (by norm_num)
  · simp only [DIGITS]
    exact digitsList_empty_elem ps1 0 ps2 (by norm_num)

/-- C5 (counterexample): a chain of 39 digits — exceeding the
38-digit table bound — whose tuples all have arity at most 8 and whose
value is `10 ^ 38 < 2 ^ 128`: both constants evaluate successfully, so
composing a chain of more than 38 total digits is not by itself a
compile-time failure. -/
theorem claim_C5_counterexample :
    DIGITS ex39 = some 39 ∧ U128 ex39 = some (10 ^ 38) := by
  exact ⟨by decide, by decide⟩

/-- C5 (amended): a tuple fails to evaluate (compile-time failure by
out-of-bounds indexing of the power table) whenever one of its components
is a part whose `DIGITS` constant exceeds 38 — in particular any chain of
more than 38 digits used as a component of a further tuple. -/
theorem claim_C5_amended (p : Chain) (ps1 ps2 : Chains) (d : Nat)
    (hD : DIGITS p = some d) (hd : 38 < d) :
    U128 (.tuple (appendChains ps1 (.cons p ps2))) = none := by
  simp only [U128]
  exact u128List_big_elem hD hd ps1 0 ps2

theorem claim_C5_witness :
    DIGITS ex39 = some 39 ∧ 38 < 39 ∧
      U128 (.tuple (.cons ex39 .nil)) = none :=
  ⟨by decide, by norm_num,
    claim_C5_amended ex39 .nil .nil 39 (by decide) (by norm_num)⟩

/-- C6: every chain of at most 38 total digits evaluates successfully:
`U128` yields a value below `10 ^ 38` (so all table indices are in bounds
and no `u128` arithmetic overflows) and `DIGITS` yields the digit count. -/
theorem claim_C6 (c : Chain) (h : (flatten c).length ≤ 38) :
    ∃ v, U128 c = some v ∧ v < 10 ^ 38 ∧
      DIGITS c = some (flatten c).length := by
  refine ⟨val (flatten c), U128_eq_val c h, ?_, DIGITS_eq_length c (by omega)⟩
  calc val (flatten c) < 10 ^ (flatten c).length := val_lt _
    _ ≤ 10 ^ 38 := Nat.pow_le_pow_right (by norm_num) h

theorem claim_C6_witness :
    (flatten ex38).length ≤ 38 ∧
      ∃ v, U128 ex38 = some v ∧ v < 10 ^ 38 ∧
        DIGITS ex38 = some (flatten ex38).length :=
  ⟨by decide, claim_C6 ex38 (by decide)⟩

/-- C7: each digit marker `__0 .. __9` has `USIZE` and `U128` equal to its
digit and `DIGITS` equal to 1, and the ten values are pairwise distinct. -/
theorem claim_C7 :
    (∀ d : Fin 10, USIZE (.digit d) = some d.val ∧
      U128 (.digit d) = some d.val ∧ DIGITS (.digit d) = some 1) ∧
    ∀ d e : Fin 10, U128 (.digit d) = U128 (.digit e) → d = e := by
  refine ⟨fun d => ⟨rfl, rfl, rfl⟩, fun d e h => ?_⟩
  apply Fin.ext
  simpa [U128] using h

theorem claim_C7_witness :
    (USIZE (.digit 7) = some (7 : Fin 10).val ∧
      U128 (.digit 7) = some (7 : Fin 10).val ∧ DIGITS (.digit 7) = some 1) ∧
      (7 : Fin 10) = 7 :=
  ⟨claim_C7.1 7, claim_C7.2 7 7 rfl⟩

/-- C8: the wrapper `TStr<__<T>>` preserves all three constants: `USIZE`,
`U128` and `DIGITS` of the wrapped chain are forwarded unchanged. -/
theorem claim_C8 (t : Chain) :
    USIZE (.tstr t) = USIZE t ∧ U128 (.tstr t) = U128 t ∧
      DIGITS (.tstr t) = DIGITS t :=
  ⟨rfl, rfl, rfl⟩

/-- C9: composition acts as decimal concatenation — for a pair (A, B) the
composed value is A * 10 ^ digits(B) + B whenever indices are in bounds
and no overflow occurs — and whenever evaluation succeeds (all power-table
indices in bounds, no u128 overflow), `U128` is exactly the base-10 value
of the flat left-to-right digit sequence and `DIGITS` its length; hence
any two nestings of the same digit sequence that both evaluate agree on
both constants. -/
theorem claim_C9 :
    (∀ (A B : Chain) (vA dA vB dB : Nat),
      U128 A = some vA → DIGITS A = some dA → U128 B = some vB →
      DIGITS B = some dB → dA ≤ 38 → dB ≤ 38 → vA < 2 ^ 128 →
      vA * 10 ^ dB + vB < 2 ^ 128 →
      U128 (.tuple (.cons A (.cons B .nil))) = some (vA * 10 ^ dB + vB)) ∧
    (∀ c : Chain,
      (∀ v, U128 c = some v → v = val (flatten c)) ∧
      (∀ d, DIGITS c = some d → d = (flatten c).length)) ∧
    ∀ c1 c2 : Chain, flatten c1 = flatten c2 →
      (∀ v1 v2, U128 c1 = some v1 → U128 c2 = some v2 → v1 = v2) ∧
      (∀ d1 d2, DIGITS c1 = some d1 → DIGITS c2 = some d2 → d1 = d2) := by
  refine ⟨?_, fun c => ⟨fun v h => U128_some_eq c v h,
      fun d h => DIGITS_some_eq c d h⟩, fun c1 c2 hf => ⟨?_, ?_⟩⟩
  case refine_2 =>
    intro v1 v2 h1 h2
    rw [U128_some_eq c1 v1 h1, U128_some_eq c2 v2 h2, hf]
  case refine_3 =>
    intro d1 d2 h1 h2
    rw [DIGITS_some_eq c1 d1 h1, DIGITS_some_eq c2 d2 h2, hf]
  case refine_1 =>
    intro A B vA dA vB dB hUA hDA hUB hDB hdA hdB hvA hbound
    have hTA := ten_pow_le hdA
    have hTB := ten_pow_le hdB
    have hMA : cmul128 0 (10 ^ dA) = some 0 := by
      unfold cmul128
      rw [if_pos (by simp [Nat.zero_mul])]
      simp
    have hAA : cadd128 vA 0 = some vA := by
      unfold cadd128
      rw [if_pos (by omega)]
      simp
    have hMB : cmul128 vA (10 ^ dB) = some (vA * 10 ^ dB) := by
      unfold cmul128
      rw [if_pos (lt_of_le_of_lt (Nat.le_add_right _ _) hbound)]
    have hAB : cadd128 vB (vA * 10 ^ dB) = some (vB + vA * 10 ^ dB) := by
      unfold cadd128
      rw [if_pos (by omega)]
    simp [U128, u128List, hUA, hDA, hUB, hDB, hTA, hTB, hMA, hAA, hMB, hAB]
    omega

theorem claim_C9_witness :
    (U128 (.digit 1) = some 1 ∧ DIGITS (.digit 1) = some 1 ∧
      U128 (.digit 2) = some 2 ∧ DIGITS (.digit 2) = some 1 ∧
      U128 (.tuple (.cons (.digit 1) (.cons (.digit 2) .nil)))
        = some (1 * 10 ^ 1 + 2)) ∧
    (U128 ex39 = some (10 ^ 38) ∧ (10 ^ 38 : Nat) = val (flatten ex39)) ∧
    (DIGITS ex39 = some 39 ∧ 39 = (flatten ex39).length) ∧
    (flatten ex39 = flatten ex39b ∧ U128 ex39b = some (10 ^ 38) ∧
      (10 ^ 38 : Nat) = (10 ^ 38 : Nat)) := by
  have h1 := claim_C9.1 (.digit 1) (.digit 2) 1 1 2 1 (by decide) (by decide)
    (by decide) (by decide) (by norm_num) (by norm_num) (by norm_num) (by norm_num)
  have h2 := (claim_C9.2.1 ex39).1 (10 ^ 38) (by decide)
  have h3 := (claim_C9.2.1 ex39).2 39 (by decide)
  have h4 := (claim_C9.2.2 ex39 ex39b (by decide)).1 (10 ^ 38) (10 ^ 38)
    (by decide) (by decide)
  exact ⟨⟨by decide, by decide, by decide, by decide, h1⟩,
    ⟨by decide, h2⟩, ⟨by decide, h3⟩, ⟨by decide, by decide, h4⟩⟩

/-- C10: the power table has exactly 39 entries, entry i equals 10 ^ i for
every i up to 38, so `ten_pow` returns exactly 10 ^ p for p at most 38 and
is undefined (out of bounds) for every larger p. -/
theorem claim_C10 :
    POW_TEN.length = 39 ∧ (∀ p, p ≤ 38 → ten_pow p = some (10 ^ p)) ∧
      ∀ p, 38 < p → ten_pow p = none :=
  ⟨by decide, fun p hp => ten_pow_le hp, fun p hp => ten_pow_gt hp⟩

theorem claim_C10_witness :
    (5 ≤ 38 ∧ ten_pow 5 = some (10 ^ 5)) ∧ (38 < 39 ∧ ten_pow 39 = none) :=
  ⟨⟨by norm_num, claim_C10.2.1 5 (by norm_num)⟩,
    ⟨by norm_num, claim_C10.2.2 39 (by norm_num)⟩⟩
